import Mathlib

set_option maxHeartbeats 1000000

/-!
Shallow embedding of the album-log tool (`src/main.rs`) and proofs about it.

Rust strings are modelled as `List Char`; `u32` counts are modelled as `Nat`
(the only arithmetic performed on them is comparison and addition).
The two regular expressions

  `DATE_PATTERN        = ^\s*→\s*(.*?)\s*$`
  `ALBUM_ENTRY_PATTERN = ^\s*(.+?)\s*(?:\((\d+)x\))?$`

are embedded as explicit leftmost-first (backtracking-priority) matchers on
`List Char`; `\s` is modelled by `Char.isWhitespace` and `\d` by
`Char.isDigit`, and `.` does not match `'\n'`.
-/

/-- Rust strings, modelled as lists of characters. -/
abbrev Str := List Char

/-- The whitespace class `\s` of the patterns (also used by `str::trim`). -/
def isWs (c : Char) : Bool := c.isWhitespace

/-- Drops trailing whitespace (Rust `str::trim_end`). -/
def trimEnd (s : Str) : Str := (s.reverse.dropWhile isWs).reverse

/-- Rust `str::trim`: drops leading and trailing whitespace. -/
def trimBoth (s : Str) : Str := trimEnd (s.dropWhile isWs)

/-- Numeric value of a decimal digit character. -/
def digitVal (c : Char) : Nat := c.toNat - 48

/-- Rust `str::parse` on a string of decimal digits. -/
def digitsToNat (ds : Str) : Nat := ds.foldl (fun a c => 10 * a + digitVal c) 0

/-- Matches `\((\d+)x\)` against the whole of `s` and returns the captured
count.  In `ALBUM_ENTRY_PATTERN` only `$` follows the optional count group, so
when the group participates in a match it extends to the end of the line. -/
def parseSuffix : Str → Option Nat
  | '(' :: rest =>
    let ds := rest.takeWhile Char.isDigit
    if ds = [] then none
    else if rest.dropWhile Char.isDigit = ['x', ')'] then some (digitsToNat ds)
    else none
  | _ => none

/-- One start position of the lazy group `(.+?)` of `ALBUM_ENTRY_PATTERN`:
the group grows one character at a time (never across `'\n'`, which `.` does
not match).  After the group, the greedy `\s*` must take the whole whitespace
run that follows — stopping short would leave a whitespace character where
`\(` or the end of the line is required — and then the count group is tried
before its empty alternative, `$` closing the line either way.  `g1rev` holds
the group read so far, reversed; `rest` is the unread tail of the line. -/
def entryTryG (g1rev : Str) : Str → Option (Str × Nat)
  | [] => some (g1rev.reverse, 1)
  | c :: cs =>
    let rest2 := (c :: cs).dropWhile isWs
    match parseSuffix rest2 with
    | some n => some (g1rev.reverse, n)
    | none =>
      if rest2 = [] then some (g1rev.reverse, 1)
      else if c = '\n' then none
      else entryTryG (c :: g1rev) cs

/-- Tries to match `(.+?)\s*(?:\((\d+)x\))?$` with the group starting exactly
at `start`: the first group character, matched by `.`, must exist and must not
be `'\n'`. -/
def tryStart1 : Str → Option (Str × Nat)
  | [] => none
  | c :: cs => if c = '\n' then none else entryTryG [c] cs

/-- Start positions for the group of `ALBUM_ENTRY_PATTERN`, in backtracking
order: the leading greedy `\s*` first swallows the whole leading whitespace
run and then backs off one character at a time.  `wsRev` is the part of the
run not yet released, reversed; `start` is the current candidate position. -/
def tryStarts : Str → Str → Option (Str × Nat)
  | [], start => tryStart1 start
  | w :: wrest, start =>
    match tryStart1 start with
    | some r => some r
    | none => tryStarts wrest (w :: start)

/-- Capture groups of `ALBUM_ENTRY_PATTERN = ^\s*(.+?)\s*(?:\((\d+)x\))?$`
on a whole line: the captured value and the count (1 when the count group is
absent, mirroring `.unwrap_or(1)` in `ParsedLine::from_str`), or `none` when
the pattern does not match the line. -/
def entryCaptures (s : Str) : Option (Str × Nat) :=
  tryStarts (s.takeWhile isWs).reverse (s.dropWhile isWs)

/-- Capture group of `DATE_PATTERN = ^\s*→\s*(.*?)\s*$` on a whole line.
The leading greedy `\s*` must stop exactly at the arrow (backing off only
re-exposes whitespace, which the arrow literal cannot match); after the arrow
the greedy `\s*` takes the whitespace run, and the lazy `(.*?)` stops as early
as the closing `\s*$` allows, so the capture is the remainder of the line with
trailing whitespace removed.  `.` does not match `'\n'`, so the pattern fails
when the capture would have to contain `'\n'`. -/
def dateCaptures (s : Str) : Option Str :=
  match s.dropWhile isWs with
  | c :: rest =>
    if c = '→' then
      let label := trimEnd (rest.dropWhile isWs)
      if '\n' ∈ label then none else some label
    else none
  | [] => none

/-- Model of `FreqEntry<T>` of the source: a value together with its
frequency. -/
structure FreqEntry (T : Type) where
  freq : Nat
  value : T
deriving DecidableEq, Repr

/-- Model of `ParsedLine` of the source: a classified line. -/
inductive ParsedLine where
  | entry : FreqEntry Str → ParsedLine
  | date : Str → ParsedLine
deriving DecidableEq, Repr

/-- Model of `ParsedLine::from_str`: the date pattern is tried first and takes
priority; otherwise the album entry pattern is tried.  `Option` models
`Result<_, ()>`. -/
def parsedLineFromStr (s : Str) : Option ParsedLine :=
  match dateCaptures s with
  | some d => some (.date d)
  | none =>
    match entryCaptures s with
    | some (v, n) => some (.entry ⟨n, v⟩)
    | none => none

/-- Order `impl Ord for FreqEntry`: `Reverse(freq)` first (descending
frequency), then the value (ascending).  Here `FreqEntry.le a b` states
`a.cmp(b) != Greater`. -/
def FreqEntry.le {T : Type} [LinearOrder T] (a b : FreqEntry T) : Prop :=
  b.freq < a.freq ∨ (a.freq = b.freq ∧ a.value ≤ b.value)

instance {T : Type} [LinearOrder T] : DecidableRel (@FreqEntry.le T _) := fun a b => by
  unfold FreqEntry.le; infer_instance

/-- Boolean form of the order, as consumed by the sort. -/
def FreqEntry.leb {T : Type} [LinearOrder T] (a b : FreqEntry T) : Bool :=
  decide (FreqEntry.le a b)

/-- Model of `RankedEntry<T>` of the source. -/
structure RankedEntry (T : Type) where
  idx : Nat
  rank : Nat
  freq_entry : FreqEntry T
deriving DecidableEq, Repr

/-- The `scan` inside `RankedEntry::from_freq_entries`: `st` is the scan state
`Option<(rank, rank_freq)>`; each element is paired with its competition rank.
The first element gets rank 1; a change of frequency increments the rank. -/
def rankScan {T : Type} (st : Option (Nat × Nat)) :
    List (FreqEntry T) → List (Nat × FreqEntry T)
  | [] => []
  | e :: rest =>
    match st with
    | none => (1, e) :: rankScan (some (1, e.freq)) rest
    | some (rank, rankFreq) =>
      if e.freq ≠ rankFreq then (rank + 1, e) :: rankScan (some (rank + 1, e.freq)) rest
      else (rank, e) :: rankScan (some (rank, rankFreq)) rest

instance {T : Type} [LinearOrder T] : IsTrans (FreqEntry T) FreqEntry.le where
  trans := by
    intro a b c hab hbc
    unfold FreqEntry.le at *
    rcases hab with h1 | ⟨h1, h1'⟩ <;> rcases hbc with h2 | ⟨h2, h2'⟩
    · exact Or.inl (by omega)
    · exact Or.inl (by omega)
    · exact Or.inl (by omega)
    · exact Or.inr ⟨by omega, le_trans h1' h2'⟩

instance {T : Type} [LinearOrder T] : IsTotal (FreqEntry T) FreqEntry.le where
  total := by
    intro a b
    unfold FreqEntry.le
    rcases lt_trichotomy a.freq b.freq with h | h | h
    · exact Or.inr (Or.inl h)
    · rcases le_total a.value b.value with hv | hv
      · exact Or.inl (Or.inr ⟨h, hv⟩)
      · exact Or.inr (Or.inr ⟨h.symm, hv⟩)
    · exact Or.inl (Or.inl h)

instance {T : Type} [LinearOrder T] : IsAntisymm (FreqEntry T) FreqEntry.le where
  antisymm := by
    intro a b hab hba
    unfold FreqEntry.le at hab hba
    obtain ⟨af, av⟩ := a
    obtain ⟨bf, bv⟩ := b
    simp only at hab hba
    rcases hab with h1 | ⟨h1, h1'⟩ <;> rcases hba with h2 | ⟨h2, h2'⟩
    · exact absurd h2 (by omega)
    · exact absurd h2 (by omega)
    · exact absurd h1 (by omega)
    · rw [h1, le_antisymm h1' h2']

/-- Model of `RankedEntry::from_freq_entries`: sort by the `Ord` above
(itertools `sorted` is a comparison sort by that `Ord`; the order is total,
transitive and antisymmetric, so every comparison sort — the source's stable
sort included — returns the same list, computed here by insertion sort and
proven below to coincide with a stable merge sort), rank-scan, then enumerate
display indices. -/
def RankedEntry.from_freq_entries {T : Type} [LinearOrder T]
    (l : List (FreqEntry T)) : List (RankedEntry T) :=
  ((rankScan none (List.insertionSort FreqEntry.le l)).enum).map
    fun p => ⟨p.1, p.2.1, p.2.2⟩

/-- Sanity: the insertion sort used above returns exactly the list the
source's stable merge sort returns. -/
lemma insertionSort_eq_mergeSort {T : Type} [LinearOrder T] (l : List (FreqEntry T)) :
    List.insertionSort FreqEntry.le l = l.mergeSort FreqEntry.leb := by
  have hms : (l.mergeSort FreqEntry.leb).Pairwise FreqEntry.le := by
    have h := @List.sorted_mergeSort (FreqEntry T) FreqEntry.leb
      (fun a b c hab hbc => by
        simp only [FreqEntry.leb, decide_eq_true_eq] at hab hbc ⊢
        exact Trans.trans hab hbc)
      (fun a b => by
        simp only [FreqEntry.leb, Bool.or_eq_true, decide_eq_true_eq]
        exact IsTotal.total a b)
      l
    refine h.imp ?_
    intro a b hab
    simpa [FreqEntry.leb] using hab
  exact List.eq_of_perm_of_sorted
    ((List.perm_insertionSort FreqEntry.le l).trans (List.mergeSort_perm l _).symm)
    (List.sorted_insertionSort FreqEntry.le l) hms

/-- Model of `AlbumLog`: the `HashMap<String, Vec<FreqEntry<String>>>` is
modelled as an association list holding one pair per distinct date key. -/
structure AlbumLog where
  entries : List (Str × List (FreqEntry Str))
  current : Option Str
deriving DecidableEq, Repr

/-- Model of `AlbumLog::new`. -/
def AlbumLog.new : AlbumLog := ⟨[], none⟩

/-- Upsert `self.entries.entry(date).or_default().push(entry)` on the
association list: extend the bucket of the key when present (keys are unique
in a map), otherwise add a fresh singleton bucket. -/
def bucketPush : List (Str × List (FreqEntry Str)) → Str → FreqEntry Str →
    List (Str × List (FreqEntry Str))
  | [], d, e => [(d, [e])]
  | p :: m, d, e =>
    if p.1 = d then (p.1, p.2 ++ [e]) :: m else p :: bucketPush m d e

/-- Model of `AlbumLog::feed_line`: a date marker replaces the current date; an entry
is appended to the current date's bucket, or dropped when no date was seen. -/
def AlbumLog.feed_line (log : AlbumLog) : ParsedLine → AlbumLog
  | .date d => ⟨log.entries, some d⟩
  | .entry e =>
    match log.current with
    | some d => ⟨bucketPush log.entries d e, log.current⟩
    | none => log

/-- The `fold` in `process_file` that feeds every classified line into a fresh
log. -/
def buildLog (ls : List ParsedLine) : AlbumLog :=
  ls.foldl AlbumLog.feed_line AlbumLog.new

/-- Model of `AlbumLog::flattened_album_entries`: every entry of every
bucket. -/
def AlbumLog.flattened (log : AlbumLog) : List (FreqEntry Str) :=
  (log.entries.map Prod.snd).flatten

/-- Model of `Counter::add` and of the equivalent raw `HashMap<_, u32>` fold
in `process_file`: `*counter.entry(value).or_default() += freq` as an upsert
on an association list (keys are unique in a map). -/
def counterAdd {K : Type} [DecidableEq K] : List (K × Nat) → K → Nat → List (K × Nat)
  | [], k, f => [(k, f)]
  | p :: m, k, f =>
    if p.1 = k then (p.1, p.2 + f) :: m else p :: counterAdd m k f

/-- Lookup with default 0: the total a counter has accumulated for a key. -/
def counterGet {K : Type} [DecidableEq K] (m : List (K × Nat)) (k : K) : Nat :=
  match m.find? (fun p => decide (p.1 = k)) with
  | some p => p.2
  | none => 0

/-- The album-frequency fold in `process_file`. -/
def albumFreq (log : AlbumLog) : List (Str × Nat) :=
  log.flattened.foldl (fun acc e => counterAdd acc e.value e.freq) []

/-- The ranked album list computed in `process_file`. -/
def rankedAlbums (ls : List ParsedLine) : List (RankedEntry Str) :=
  RankedEntry.from_freq_entries ((albumFreq (buildLog ls)).map fun p => ⟨p.2, p.1⟩)

/-- Model of Rust `str::split_once('–')` (`ENTRY_SEPARATOR`): the text before and after
the first occurrence of the separator, or `none` when it is absent. -/
def splitOnceSep : Str → Option (Str × Str)
  | [] => none
  | c :: cs =>
    if c = '–' then some ([], cs)
    else
      match splitOnceSep cs with
      | some p => some (c :: p.1, p.2)
      | none => none

/-- Model of Rust `str::split('/')` (`ARTIST_JOINER`): the pieces between
occurrences of the joiner, empty pieces included. -/
def splitAllJoiner : Str → List Str
  | [] => [[]]
  | c :: cs =>
    if c = '/' then [] :: splitAllJoiner cs
    else
      match splitAllJoiner cs with
      | a :: r => (c :: a) :: r
      | [] => [[c]]

/-- Model of `get_artists`: split at the first `'–'`, then split the artist side on
`'/'` and trim each name.  `Option` models `Result<_, ()>`. -/
def get_artists (album_entry : Str) : Option (List Str) :=
  (splitOnceSep album_entry).map fun p => (splitAllJoiner p.1).map trimBoth

/-- The artist `(value, freq)` observations generated in `process_file` from
the ranked album entries (`get_artists(..).into_iter().flatten()` paired with
the album's frequency). -/
def artistPairs (res : List (RankedEntry Str)) : List (Str × Nat) :=
  (res.map fun r =>
    match get_artists r.freq_entry.value with
    | some arts => arts.map fun a => (a, r.freq_entry.freq)
    | none => []).flatten

/-- The artist counter fold in `process_file`. -/
def artistCounter (res : List (RankedEntry Str)) : List (Str × Nat) :=
  (artistPairs res).foldl (fun acc p => counterAdd acc p.1 p.2) []

/-- End-to-end per-album total of value `v` for a classified line sequence. -/
def albumTotalOfLines (ls : List ParsedLine) (v : Str) : Nat :=
  counterGet (albumFreq (buildLog ls)) v

/-- End-to-end per-artist total of artist `a` for a classified line
sequence. -/
def artistTotalOfLines (ls : List ParsedLine) (a : Str) : Nat :=
  counterGet (artistCounter (rankedAlbums ls)) a

/-- The zero-pad width computation in `print_top`: `u32::ilog10` is
`Nat.log 10`; `digits = if unique > 0 { unique.ilog10() } else { 0 }` is then
corrected by `if 10u32.pow(digits) < unique { digits += 1 }`. -/
def padWidth (unique : Nat) : Nat :=
  let digits := if unique > 0 then Nat.log 10 unique else 0
  if 10 ^ digits < unique then digits + 1 else digits

/-- Each entry paired with the date governing it, as `AlbumLog` associates
them: a date marker re-points the current date, entries before the first date
marker are dropped. -/
def taggedEntries (cur : Option Str) : List ParsedLine → List (Str × FreqEntry Str)
  | [] => []
  | .date d :: rest => taggedEntries (some d) rest
  | .entry e :: rest =>
    match cur with
    | some d => (d, e) :: taggedEntries (some d) rest
    | none => taggedEntries cur rest

/-! ## Helper lemmas -/

lemma entryTryG_isSome (rest : Str) (h : '\n' ∉ rest) (g1rev : Str) :
    (entryTryG g1rev rest).isSome = true := by
  induction rest generalizing g1rev with
  | nil => simp [entryTryG]
  | cons c cs ih =>
    rw [entryTryG]
    cases hps : parseSuffix ((c :: cs).dropWhile isWs) with
    | some n => simp
    | none =>
      by_cases h2 : (c :: cs).dropWhile isWs = []
      · simp [h2]
      · have hc : c ≠ '\n' := fun hcc => h (hcc ▸ List.mem_cons_self c cs)
        simp only [h2, if_false, hc]
        exact ih (fun hm => h (List.mem_cons_of_mem c hm)) (c :: g1rev)

lemma tryStarts_isSome (wsRev start : Str) (h : (tryStart1 start).isSome = true) :
    (tryStarts wsRev start).isSome = true := by
  cases wsRev with
  | nil => exact h
  | cons w wrest =>
    rw [tryStarts]
    cases h1 : tryStart1 start with
    | some r => simp
    | none => rw [h1] at h; simp at h

/-! ## C2: zero-pad width in the report presenter -/

/-- C2, counterexample: the claim says the zero-padding width equals the
number of decimal digits of the distinct-value count, e.g. width 2 for a
count of 10.  The code computes width 1 for a count of 10 (`ilog10(10) = 1`
and `10^1 < 10` fails, so no correction is applied), and width 0 (not the
claimed minimum of 1) for counts 0 and 1. -/
theorem C2_counterexample : padWidth 10 = 1 ∧ padWidth 10 ≠ 2 ∧ padWidth 0 = 0 := by
  have h10 : Nat.log 10 10 = 1 := by
    have := Nat.log_pow (show (1 : ℕ) < 10 by norm_num) 1
    simpa using this
  unfold padWidth
  norm_num [h10]

/-- C2, amended: the zero-padding width computed by `print_top` is the least
`d` with `unique ≤ 10 ^ d` — that is the number of decimal digits of
`unique`, except on exact powers of ten (including counts 0 and 1, which get
width 0) where it is one less. -/
theorem C2_padWidth_least (u : Nat) :
    u ≤ 10 ^ padWidth u ∧ ∀ d : Nat, u ≤ 10 ^ d → padWidth u ≤ d := by
  by_cases hpos : u > 0
  · have hlog : u < 10 ^ (Nat.log 10 u + 1) := Nat.lt_pow_succ_log_self (by norm_num) u
    unfold padWidth
    simp only [hpos, if_true]
    by_cases hc : 10 ^ Nat.log 10 u < u
    · simp only [hc, if_true]
      refine ⟨Nat.le_of_lt hlog, fun d hd => ?_⟩
      by_contra hlt
      push_neg at hlt
      have hdle : d ≤ Nat.log 10 u := by omega
      have : 10 ^ d ≤ 10 ^ Nat.log 10 u := Nat.pow_le_pow_right (by norm_num) hdle
      omega
    · simp only [hc, if_false]
      push_neg at hc
      refine ⟨hc, fun d hd => ?_⟩
      calc Nat.log 10 u ≤ Nat.log 10 (10 ^ d) := Nat.log_mono_right hd
        _ = d := Nat.log_pow (show (1 : ℕ) < 10 by norm_num) d
  · have h0 : u = 0 := by omega
    subst h0
    unfold padWidth
    norm_num

/-- C2, witness for the amended theorem at `u = 5`. -/
theorem C2_padWidth_least_witness : 5 ≤ 10 ^ padWidth 5 ∧ padWidth 5 ≤ 1 :=
  ⟨(C2_padWidth_least 5).1, (C2_padWidth_least 5).2 1 (by decide)⟩

/-! ## C7: date markers take priority over entries -/

/-- C7: a line matching the date pattern is classified as a date marker and
never as a counted entry, even if the entry pattern would also match. -/
theorem C7_date_priority (s d : Str) (h : dateCaptures s = some d) :
    parsedLineFromStr s = some (.date d) ∧
      ∀ e, parsedLineFromStr s ≠ some (.entry e) := by
  constructor
  · unfold parsedLineFromStr
    rw [h]
  · intro e
    unfold parsedLineFromStr
    rw [h]
    simp

/-- C7, witness: the line matches both the date pattern and the entry
pattern, and is classified as a date marker. -/
theorem C7_date_priority_witness :
    (entryCaptures "→ 2024 (3x)".data).isSome = true ∧
      parsedLineFromStr "→ 2024 (3x)".data = some (.date "2024 (3x)".data) :=
  ⟨by decide, (C7_date_priority "→ 2024 (3x)".data "2024 (3x)".data (by decide)).1⟩

/-! ## C10: classification never fails on a non-blank line -/

/-- C10: every line that is non-empty after trimming is classified
successfully (the entry pattern matches any such line), so the fatal
malformed-line branch is unreachable for lines surviving the blank-line
filter.  A line read from the file never contains a newline character, which
is the one character the patterns' `.` cannot consume. -/
theorem C10_classification_total (s : Str) (hnb : trimBoth s ≠ []) (hnl : '\n' ∉ s) :
    (parsedLineFromStr s).isSome = true := by
  unfold parsedLineFromStr
  cases hd : dateCaptures s with
  | some d => simp
  | none =>
    have ht : s.dropWhile isWs ≠ [] := by
      intro h0
      apply hnb
      unfold trimBoth
      rw [h0]
      rfl
    have hsome : (entryCaptures s).isSome = true := by
      unfold entryCaptures
      cases hds : s.dropWhile isWs with
      | nil => exact absurd hds ht
      | cons c cs =>
        apply tryStarts_isSome
        unfold tryStart1
        have hmem : ∀ x ∈ c :: cs, x ∈ s := by
          intro x hx
          have hxd : x ∈ s.dropWhile isWs := hds ▸ hx
          exact List.IsSuffix.mem hxd (List.dropWhile_suffix isWs)
        have hc : c ≠ '\n' := fun hcc =>
          hnl (hcc ▸ hmem c (List.mem_cons_self c cs))
        simp only [hc, if_false]
        exact entryTryG_isSome cs
          (fun hm => hnl (hmem '\n' (List.mem_cons_of_mem c hm))) [c]
    cases he : entryCaptures s with
    | some p => simp
    | none => rw [he] at hsome; simp at hsome

/-- C10, witness at a concrete non-blank line. -/
theorem C10_classification_total_witness :
    trimBoth "hello".data ≠ [] ∧ (parsedLineFromStr "hello".data).isSome = true :=
  ⟨by decide, C10_classification_total "hello".data (by decide) (by decide)⟩

/-! ## Characterisation of the count suffix -/

lemma mem_takeWhile_pred {α : Type} {p : α → Bool} {a : α} :
    ∀ {l : List α}, a ∈ l.takeWhile p → p a = true := by
  intro l
  induction l with
  | nil => intro h; cases h
  | cons b t ih =>
    rw [List.takeWhile_cons]
    by_cases hb : p b = true
    · rw [if_pos hb]
      intro h
      rcases List.mem_cons.mp h with rfl | hmt
      · exact hb
      · exact ih hmt
    · rw [if_neg hb]
      intro h
      cases h

lemma parseSuffix_eq_some (x : Str) (n : Nat) (h : parseSuffix x = some n) :
    ∃ ds : Str, ds ≠ [] ∧ (∀ c ∈ ds, c.isDigit = true) ∧
      x = '(' :: (ds ++ ['x', ')']) ∧ n = digitsToNat ds := by
  match x with
  | [] => simp [parseSuffix] at h
  | c :: rest =>
    by_cases hc : c = '('
    · subst hc
      rw [parseSuffix] at h
      by_cases hds : rest.takeWhile Char.isDigit = []
      · rw [if_pos hds] at h
        cases h
      · rw [if_neg hds] at h
        by_cases hdrop : rest.dropWhile Char.isDigit = ['x', ')']
        · rw [if_pos hdrop] at h
          refine ⟨rest.takeWhile Char.isDigit, hds, ?_, ?_, ?_⟩
          · intro a ha
            exact mem_takeWhile_pred ha
          · rw [← hdrop, List.takeWhile_append_dropWhile]
          · injection h with h'
            exact h'.symm
        · rw [if_neg hdrop] at h
          cases h
    · exfalso
      have : parseSuffix (c :: rest) = none := by
        rw [parseSuffix.eq_def]
        split
        · next heq => injection heq with h1 _; exact absurd h1 hc
        · rfl
      rw [this] at h
      cases h

lemma parseSuffix_of_form (ds : Str) (hne : ds ≠ []) (hdig : ∀ c ∈ ds, c.isDigit = true) :
    parseSuffix ('(' :: (ds ++ ['x', ')'])) = some (digitsToNat ds) := by
  have ht : (ds ++ ['x', ')']).takeWhile Char.isDigit = ds := by
    rw [List.takeWhile_append_of_pos hdig]
    simp [List.takeWhile_cons]
  have hd : (ds ++ ['x', ')']).dropWhile Char.isDigit = ['x', ')'] := by
    rw [List.dropWhile_append_of_pos hdig]
    simp [List.dropWhile_cons]
  rw [parseSuffix, ht, hd, if_neg hne, if_pos rfl]

lemma parseSuffix_append_none (x : Str) (hx : x ≠ []) (rest : Str) :
    parseSuffix (x ++ '(' :: rest) = none := by
  cases hps : parseSuffix (x ++ '(' :: rest) with
  | none => rfl
  | some n =>
    exfalso
    obtain ⟨ds, _, hdig, hform, _⟩ := parseSuffix_eq_some _ _ hps
    cases x with
    | nil => exact hx rfl
    | cons c x' =>
      rw [List.cons_append] at hform
      injection hform with hc htail
      have hmem : '(' ∈ ds ++ ['x', ')'] := by
        rw [← htail]
        exact List.mem_append_right x' (List.mem_cons_self '(' rest)
      rcases List.mem_append.mp hmem with hds | hxr
      · have := hdig '(' hds
        simp [Char.isDigit] at this
      · simp at hxr

/-- Tests whether a list starts with an opening parenthesis. -/
def headIsParen : Str → Bool
  | '(' :: _ => true
  | _ => false

/-- Decides whether a line, reversed, starts with a reversed count suffix:
whether the line ends in `(<digits>x)` with at least one digit. -/
def endsWithCountRev : Str → Bool
  | ')' :: 'x' :: r =>
    decide (r.takeWhile Char.isDigit ≠ []) && headIsParen (r.dropWhile Char.isDigit)
  | _ => false

/-- Decides whether a line ends in a count suffix `(<digits>x)` with at least
one digit: the only shape through which the count group of
`ALBUM_ENTRY_PATTERN` can participate in a match. -/
def endsWithCount (s : Str) : Bool := endsWithCountRev s.reverse

lemma endsWithCount_of_suffix (s r2 : Str) (n : Nat)
    (hsf : r2 <:+ s) (hps : parseSuffix r2 = some n) :
    endsWithCount s = true := by
  obtain ⟨ds, hne, hdig, hform, _⟩ := parseSuffix_eq_some _ _ hps
  obtain ⟨pre, hpre⟩ := hsf
  have hdigrev : ∀ c ∈ ds.reverse, c.isDigit = true := by
    intro c hc
    exact hdig c (List.mem_reverse.mp hc)
  have hsrev : s.reverse = ')' :: 'x' :: (ds.reverse ++ '(' :: pre.reverse) := by
    rw [← hpre, hform]
    simp
  have ht : (ds.reverse ++ '(' :: pre.reverse).takeWhile Char.isDigit = ds.reverse := by
    rw [List.takeWhile_append_of_pos hdigrev]
    simp [List.takeWhile_cons]
  have hd : (ds.reverse ++ '(' :: pre.reverse).dropWhile Char.isDigit =
      '(' :: pre.reverse := by
    rw [List.dropWhile_append_of_pos hdigrev]
    simp [List.dropWhile_cons]
  unfold endsWithCount
  rw [hsrev]
  show (decide ((ds.reverse ++ '(' :: pre.reverse).takeWhile Char.isDigit ≠ []) &&
      headIsParen ((ds.reverse ++ '(' :: pre.reverse).dropWhile Char.isDigit)) = true
  rw [ht, hd]
  simp [hne, headIsParen]

/-! ## Where an entry's count can come from -/

lemma entryTryG_count (g1rev rest v : Str) (n : Nat)
    (h : entryTryG g1rev rest = some (v, n)) :
    n = 1 ∨ ∃ r2, r2 <:+ rest ∧ parseSuffix r2 = some n := by
  induction rest generalizing g1rev with
  | nil =>
    rw [entryTryG] at h
    injection h with h'
    injection h' with _ h2
    exact Or.inl h2.symm
  | cons c cs ih =>
    rw [entryTryG] at h
    cases hps : parseSuffix ((c :: cs).dropWhile isWs) with
    | some m =>
      rw [hps] at h
      injection h with h'
      injection h' with _ h2
      subst h2
      exact Or.inr ⟨_, List.dropWhile_suffix isWs, hps⟩
    | none =>
      rw [hps] at h
      by_cases h2 : (c :: cs).dropWhile isWs = []
      · rw [if_pos h2] at h
        injection h with h'
        injection h' with _ h3
        exact Or.inl h3.symm
      · rw [if_neg h2] at h
        by_cases hc : c = '\n'
        · rw [if_pos hc] at h
          cases h
        · rw [if_neg hc] at h
          rcases ih (c :: g1rev) h with h1 | ⟨r2, hsf, hps2⟩
          · exact Or.inl h1
          · exact Or.inr ⟨r2, hsf.trans (List.suffix_cons c cs), hps2⟩

lemma tryStart1_count (start v : Str) (n : Nat) (h : tryStart1 start = some (v, n)) :
    n = 1 ∨ ∃ r2, r2 <:+ start ∧ parseSuffix r2 = some n := by
  cases start with
  | nil => simp [tryStart1] at h
  | cons c cs =>
    rw [tryStart1] at h
    by_cases hc : c = '\n'
    · rw [if_pos hc] at h
      cases h
    · rw [if_neg hc] at h
      rcases entryTryG_count [c] cs v n h with h1 | ⟨r2, hsf, hps⟩
      · exact Or.inl h1
      · exact Or.inr ⟨r2, hsf.trans (List.suffix_cons c cs), hps⟩

lemma tryStarts_count (wsRev : Str) : ∀ (start v : Str) (n : Nat),
    tryStarts wsRev start = some (v, n) →
    n = 1 ∨ ∃ r2, r2 <:+ (wsRev.reverse ++ start) ∧ parseSuffix r2 = some n := by
  induction wsRev with
  | nil =>
    intro start v n h
    rw [tryStarts] at h
    simpa using tryStart1_count start v n h
  | cons w wrest ih =>
    intro start v n h
    rw [tryStarts] at h
    cases h1 : tryStart1 start with
    | some r =>
      rw [h1] at h
      injection h with h'
      subst h'
      rcases tryStart1_count start v n h1 with h2 | ⟨r2, hsf, hps⟩
      · exact Or.inl h2
      · exact Or.inr ⟨r2, hsf.trans (List.suffix_append _ start), hps⟩
    | none =>
      rw [h1] at h
      rcases ih (w :: start) v n h with h2 | ⟨r2, hsf, hps⟩
      · exact Or.inl h2
      · refine Or.inr ⟨r2, ?_, hps⟩
        have : wrest.reverse ++ (w :: start) = (w :: wrest).reverse ++ start := by
          simp
        rwa [this] at hsf

lemma entryCaptures_count (s v : Str) (n : Nat) (h : entryCaptures s = some (v, n)) :
    n = 1 ∨ ∃ r2, r2 <:+ s ∧ parseSuffix r2 = some n := by
  unfold entryCaptures at h
  rcases tryStarts_count _ _ _ _ h with h1 | ⟨r2, hsf, hps⟩
  · exact Or.inl h1
  · refine Or.inr ⟨r2, ?_, hps⟩
    rwa [List.reverse_reverse, List.takeWhile_append_dropWhile] at hsf

/-! ## C8: default count and explicit count -/

/-- C8: a line carrying no `(<digits>x)` suffix at its end is classified with
count 1 (the count group of the pattern can only match at the end of the
line), and the line "Abbey Road (3x)" yields value "Abbey Road" with
count 3. -/
theorem C8_default_count :
    (∀ (s v : Str) (n : Nat), entryCaptures s = some (v, n) →
        endsWithCount s = false → n = 1) ∧
      parsedLineFromStr "Abbey Road (3x)".data =
        some (.entry ⟨3, "Abbey Road".data⟩) := by
  constructor
  · intro s v n h hn
    rcases entryCaptures_count s v n h with h1 | ⟨r2, hsf, hps⟩
    · exact h1
    · rw [endsWithCount_of_suffix s r2 n hsf hps] at hn
      cases hn
  · decide

/-- C8, witness: a suffix-free line gets count 1. -/
theorem C8_default_count_witness :
    entryCaptures "Abbey".data = some ("Abbey".data, 1) ∧ (1 : Nat) = 1 :=
  ⟨by decide, C8_default_count.1 "Abbey".data "Abbey".data 1 (by decide) (by decide)⟩

/-! ## C3: counts below 1 -/

/-- C3, counterexample: the claim states no counted entry ever gets count 0,
including for lines with an explicit `(0x)` suffix.  The digit group `\d+`
accepts "0", so the line "a (0x)" is classified as a counted entry with
count 0. -/
theorem C3_counterexample :
    parsedLineFromStr "a (0x)".data = some (.entry ⟨0, "a".data⟩) := by
  decide

lemma digits_foldl_zero (ds : Str) : ∀ a : Nat,
    ds.foldl (fun x c => 10 * x + digitVal c) a = 0 →
    a = 0 ∧ ∀ c ∈ ds, digitVal c = 0 := by
  induction ds with
  | nil =>
    intro a h
    exact ⟨h, by intro c hc; cases hc⟩
  | cons d ds ih =>
    intro a h
    rw [List.foldl_cons] at h
    obtain ⟨h0, hall⟩ := ih (10 * a + digitVal d) h
    refine ⟨by omega, ?_⟩
    intro c hc
    rcases List.mem_cons.mp hc with rfl | hmem
    · omega
    · exact hall c hmem

lemma digit_char_zero (c : Char) (hd : c.isDigit = true) (hv : digitVal c = 0) :
    c = '0' := by
  have hge : (48 : UInt32) ≤ c.val := by
    simp only [Char.isDigit, Bool.and_eq_true, decide_eq_true_eq] at hd
    exact hd.1
  have hge' : (48 : Nat) ≤ c.val.toNat := UInt32.le_toNat_of_le (by norm_num) hge
  have hle : c.val.toNat ≤ 48 := by
    unfold digitVal Char.toNat at hv
    omega
  have : c.val.toNat = ('0' : Char).val.toNat := by
    have : ('0' : Char).val.toNat = 48 := by decide
    omega
  exact Char.ext (UInt32.toNat.inj this)

/-- C3, amended: a counted entry's count is at least 1 unless the line ends
in an explicitly zero-valued count suffix — one whose digits are all `'0'` —
in which case the count is 0 and the line ends in the characters `0x)`. -/
theorem C3_count_zero_only_explicit (s v : Str) (n : Nat)
    (h : entryCaptures s = some (v, n)) (h0 : n = 0) :
    ∃ p : Str, s = p ++ ['0', 'x', ')'] := by
  subst h0
  rcases entryCaptures_count s v 0 h with h1 | ⟨r2, hsf, hps⟩
  · cases h1
  · obtain ⟨ds, hne, hdig, hform, hn⟩ := parseSuffix_eq_some _ _ hps
    obtain ⟨pre, hpre⟩ := hsf
    have hzero : ∀ c ∈ ds, digitVal c = 0 :=
      (digits_foldl_zero ds 0 (by rw [← digitsToNat]; omega)).2
    obtain ⟨ds', hlast⟩ : ∃ ds', ds = ds' ++ ['0'] := by
      have hlast0 : ds.getLast hne = '0' := by
        apply digit_char_zero
        · exact hdig _ (List.getLast_mem hne)
        · exact hzero _ (List.getLast_mem hne)
      refine ⟨ds.dropLast, ?_⟩
      rw [← hlast0]
      exact (List.dropLast_append_getLast hne).symm
    refine ⟨pre ++ '(' :: ds', ?_⟩
    rw [← hpre, hform, hlast]
    simp

/-- C3, witness for the amended theorem: the line "a (0x)" produces count 0
and indeed ends in `0x)`. -/
theorem C3_count_zero_only_explicit_witness :
    ∃ p : Str, "a (0x)".data = p ++ ['0', 'x', ')'] :=
  C3_count_zero_only_explicit "a (0x)".data "a".data 0 (by decide) rfl

/-! ## C4: the count suffix is only recognised at the very end of the line -/

/-- C4, counterexample: the claim (following the spec grammar ending in
`\s*$`) says a trailing `(<N>x)` suffix is stripped even when whitespace
follows it.  The code's pattern ends in `\((\d+)x\))?$` with no `\s*` before
`$`, so on "Abbey Road (3x) " the suffix cannot match: the whole trimmed
line becomes the value and the count defaults to 1, instead of the claimed
value "Abbey Road" with count 3. -/
theorem C4_counterexample :
    parsedLineFromStr "Abbey Road (3x) ".data =
      some (.entry ⟨1, "Abbey Road (3x)".data⟩) := by
  decide

lemma entryTryG_suffix_hit (g1rev rest : Str) (m : Nat)
    (h : parseSuffix (rest.dropWhile isWs) = some m) :
    entryTryG g1rev rest = some (g1rev.reverse, m) := by
  cases rest with
  | nil => simp [parseSuffix] at h
  | cons c cs => rw [entryTryG, h]

lemma entryTryG_through (v' w ds : Str) (hw : ∀ c ∈ w, isWs c = true)
    (hds : ds ≠ []) (hdig : ∀ c ∈ ds, c.isDigit = true)
    (hnl : '\n' ∉ v')
    (hvl : ∀ c, v'.getLast? = some c → isWs c = false) :
    ∀ g1rev, entryTryG g1rev (v' ++ (w ++ ('(' :: (ds ++ ['x', ')'])))) =
      some (g1rev.reverse ++ v', digitsToNat ds) := by
  induction v' with
  | nil =>
    intro g1rev
    have hdw : (w ++ ('(' :: (ds ++ ['x', ')']))).dropWhile isWs =
        '(' :: (ds ++ ['x', ')']) := by
      rw [List.dropWhile_append_of_pos hw, List.dropWhile_cons, if_neg (by decide)]
    have := entryTryG_suffix_hit g1rev (w ++ ('(' :: (ds ++ ['x', ')'])))
      (digitsToNat ds) (by rw [hdw]; exact parseSuffix_of_form ds hds hdig)
    simpa using this
  | cons d v'' ih =>
    intro g1rev
    have hdnl : d ≠ '\n' := fun hh => hnl (hh ▸ List.mem_cons_self d v'')
    have hlastnw : ∃ c ∈ d :: v'', isWs c = false := by
      refine ⟨(d :: v'').getLast (by simp), List.getLast_mem _, ?_⟩
      exact hvl _ (List.getLast?_eq_getLast _ (by simp))
    have hx : ((d :: v'') ++ w).dropWhile isWs ≠ [] := by
      rw [Ne, List.dropWhile_eq_nil_iff]
      intro hall
      obtain ⟨c, hcm, hcw⟩ := hlastnw
      rw [hall c (List.mem_append_left w hcm)] at hcw
      cases hcw
    have hshape : d :: (v'' ++ (w ++ ('(' :: (ds ++ ['x', ')'])))) =
        ((d :: v'') ++ w) ++ ('(' :: (ds ++ ['x', ')'])) := by
      simp
    have hrest2 : (d :: (v'' ++ (w ++ ('(' :: (ds ++ ['x', ')']))))).dropWhile isWs =
        ((d :: v'') ++ w).dropWhile isWs ++ ('(' :: (ds ++ ['x', ')'])) := by
      rw [hshape, List.dropWhile_append, if_neg]
      simpa [List.isEmpty_iff] using hx
    have hps : parseSuffix
        ((d :: (v'' ++ (w ++ ('(' :: (ds ++ ['x', ')']))))).dropWhile isWs) = none := by
      rw [hrest2]
      exact parseSuffix_append_none _ hx _
    have h2 : (d :: (v'' ++ (w ++ ('(' :: (ds ++ ['x', ')']))))).dropWhile isWs ≠ [] := by
      rw [hrest2]
      simp
    have hvl'' : ∀ c, v''.getLast? = some c → isWs c = false := by
      intro c hc
      apply hvl
      cases v'' with
      | nil => cases hc
      | cons a t => rw [List.getLast?_cons_cons]; exact hc
    have hnl'' : '\n' ∉ v'' := fun hm => hnl (List.mem_cons_of_mem d hm)
    have hrec := ih hnl'' hvl'' (d :: g1rev)
    rw [List.cons_append, entryTryG, hps, if_neg h2, if_neg hdnl, hrec]
    simp

lemma tryStarts_first_hit (wsRev start : Str) (r : Str × Nat)
    (h : tryStart1 start = some r) : tryStarts wsRev start = some r := by
  cases wsRev with
  | nil => rw [tryStarts]; exact h
  | cons w wrest => rw [tryStarts, h]

/-- C4, amended: the count suffix is recognised — and stripped from the
value — exactly when it sits at the very end of the line: for any line made
of leading whitespace, a value (no newline, not starting or ending in
whitespace), optional whitespace and a `(<digits>x)` suffix closing the
line, classification captures the bare value and the suffix's count.  The
counterexample above shows the suffix is not stripped when whitespace
follows it. -/
theorem C4_suffix_stripping (lead v w ds : Str)
    (hlead : ∀ c ∈ lead, isWs c = true)
    (hw : ∀ c ∈ w, isWs c = true)
    (hv : v ≠ [])
    (hnl : '\n' ∉ v)
    (hvh : ∀ c, v.head? = some c → isWs c = false)
    (hvl : ∀ c, v.getLast? = some c → isWs c = false)
    (hds : ds ≠ []) (hdig : ∀ c ∈ ds, c.isDigit = true) :
    entryCaptures (lead ++ (v ++ (w ++ ('(' :: (ds ++ ['x', ')']))))) =
      some (v, digitsToNat ds) := by
  cases v with
  | nil => exact absurd rfl hv
  | cons c₀ v₁ =>
    have hc₀ : isWs c₀ = false := hvh c₀ rfl
    have hc₀n : c₀ ≠ '\n' := by
      intro hh
      rw [hh] at hc₀
      cases hc₀
    have htk : (lead ++ (c₀ :: v₁ ++ (w ++ ('(' :: (ds ++ ['x', ')']))))).takeWhile isWs
        = lead := by
      rw [List.takeWhile_append_of_pos hlead, List.cons_append, List.takeWhile_cons,
        hc₀]
      simp
    have hdr : (lead ++ (c₀ :: v₁ ++ (w ++ ('(' :: (ds ++ ['x', ')']))))).dropWhile isWs
        = c₀ :: (v₁ ++ (w ++ ('(' :: (ds ++ ['x', ')'])))) := by
      rw [List.dropWhile_append_of_pos hlead, List.cons_append, List.dropWhile_cons,
        hc₀]
      simp
    have hvl₁ : ∀ c, v₁.getLast? = some c → isWs c = false := by
      intro c hc
      apply hvl
      cases v₁ with
      | nil => cases hc
      | cons a t => rw [List.getLast?_cons_cons]; exact hc
    have hnl₁ : '\n' ∉ v₁ := fun hm => hnl (List.mem_cons_of_mem c₀ hm)
    have hrun := entryTryG_through v₁ w ds hw hds hdig hnl₁ hvl₁ [c₀]
    unfold entryCaptures
    rw [htk, hdr]
    apply tryStarts_first_hit
    rw [tryStart1, if_neg hc₀n, hrun]
    simp

/-- C4, witness for the amended theorem: the suffix at the very end of
"Abbey Road (3x)" is stripped and its count captured. -/
theorem C4_suffix_stripping_witness :
    entryCaptures ([] ++ ("Abbey Road".data ++ ([' '] ++
        ('(' :: ("3".data ++ ['x', ')']))))) = some ("Abbey Road".data, 3) := by
  have h := C4_suffix_stripping [] "Abbey Road".data [' '] "3".data
    (by decide) (by decide) (by decide) (by decide) (by decide) (by decide)
    (by decide) (by decide)
  simpa using h

/-! ## Counter lemmas -/

lemma counterGet_nil {K : Type} [DecidableEq K] (k : K) :
    counterGet ([] : List (K × Nat)) k = 0 := rfl

lemma counterGet_cons {K : Type} [DecidableEq K] (p : K × Nat) (m : List (K × Nat))
    (k : K) : counterGet (p :: m) k = if p.1 = k then p.2 else counterGet m k := by
  unfold counterGet
  rw [List.find?_cons]
  by_cases h : p.1 = k
  · simp [h]
  · simp [h]

lemma counterGet_counterAdd {K : Type} [DecidableEq K] (m : List (K × Nat))
    (k' k : K) (f : Nat) :
    counterGet (counterAdd m k' f) k = counterGet m k + (if k' = k then f else 0) := by
  induction m with
  | nil =>
    rw [counterAdd, counterGet_cons, counterGet_nil]
    by_cases h : k' = k <;> simp [h]
  | cons p m ih =>
    rw [counterAdd]
    by_cases hp : p.1 = k'
    · rw [if_pos hp, counterGet_cons, counterGet_cons]
      by_cases hk : p.1 = k
      · have hkk : k' = k := by rw [← hp, hk]
        simp [hk, hkk]
      · have hkk : k' ≠ k := fun hh => hk (by rw [hp, hh])
        simp [hk, hkk]
    · rw [if_neg hp, counterGet_cons, counterGet_cons]
      by_cases hk : p.1 = k
      · have hkk : k' ≠ k := fun hh => hp (by rw [hk, hh])
        simp [hk, hkk]
      · simp [hk, ih]

lemma counterGet_foldl {K : Type} [DecidableEq K] (ps : List (K × Nat)) :
    ∀ (m : List (K × Nat)) (k : K),
      counterGet (ps.foldl (fun acc p => counterAdd acc p.1 p.2) m) k =
        counterGet m k + (ps.map fun p => if p.1 = k then p.2 else 0).sum := by
  induction ps with
  | nil => intro m k; simp
  | cons p ps ih =>
    intro m k
    rw [List.foldl_cons, ih, counterGet_counterAdd, List.map_cons, List.sum_cons,
      Nat.add_assoc]

/-! ## C5: full artist credit -/

lemma sum_credit_map (a : Str) (arts : List Str) (f : Nat) :
    ((arts.map fun a' => (a', f)).map fun p => if p.1 = a then p.2 else 0).sum =
      arts.count a * f := by
  induction arts with
  | nil => simp
  | cons b t ih =>
    simp only [List.map_cons, List.sum_cons, ih, List.count_cons]
    by_cases h : b = a
    · simp only [h, if_pos rfl, beq_self_eq_true, if_true]
      ring
    · have hba : (b == a) = false := by simp [h]
      simp [h, hba]

lemma artistPairs_cons (r : RankedEntry Str) (res : List (RankedEntry Str)) :
    artistPairs (r :: res) =
      (match get_artists r.freq_entry.value with
        | some arts => arts.map fun a => (a, r.freq_entry.freq)
        | none => []) ++ artistPairs res := by
  unfold artistPairs
  rw [List.map_cons, List.flatten_cons]

lemma artist_credit_formula (res : List (RankedEntry Str)) (a : Str) :
    ((artistPairs res).map fun p => if p.1 = a then p.2 else 0).sum =
      (res.map fun r =>
        ((get_artists r.freq_entry.value).getD []).count a * r.freq_entry.freq).sum := by
  induction res with
  | nil => simp [artistPairs]
  | cons r t ih =>
    rw [artistPairs_cons, List.map_append, List.sum_append, ih, List.map_cons,
      List.sum_cons]
    congr 1
    cases hga : get_artists r.freq_entry.value with
    | some arts =>
      simp only [Option.getD_some]
      exact sum_credit_map a arts _
    | none => simp

/-- C5: in the artist totals accumulated by `process_file`, each artist name
obtained by splitting an album entry's artist side on the joiner is credited
the entry's full frequency — the total for artist `a` is the sum, over the
album entries, of the full entry frequency times the number of times `a`
occurs in that entry's artist list.  In particular the entry
"A / B – Album X" with frequency 2 contributes 2 to artist "A" and 2 to
artist "B". -/
theorem C5_artist_full_credit (res : List (RankedEntry Str)) (a : Str) :
    counterGet (artistCounter res) a =
      (res.map fun r =>
        ((get_artists r.freq_entry.value).getD []).count a * r.freq_entry.freq).sum ∧
    artistTotalOfLines
      [.date "d".data, .entry ⟨2, "A / B – Album X".data⟩] "A".data = 2 ∧
    artistTotalOfLines
      [.date "d".data, .entry ⟨2, "A / B – Album X".data⟩] "B".data = 2 := by
  refine ⟨?_, by decide, by decide⟩
  unfold artistCounter
  rw [counterGet_foldl _ [] a, counterGet_nil, Nat.zero_add]
  exact artist_credit_formula res a

/-! ## C6: entries before the first date marker are dropped -/

lemma feed_lines_entries_only (pre : List ParsedLine)
    (hpre : ∀ l ∈ pre, ∃ e, l = ParsedLine.entry e) :
    pre.foldl AlbumLog.feed_line AlbumLog.new = AlbumLog.new := by
  induction pre with
  | nil => rfl
  | cons l t ih =>
    rw [List.foldl_cons]
    obtain ⟨e, rfl⟩ := hpre l (List.mem_cons_self l t)
    have hfeed : AlbumLog.new.feed_line (.entry e) = AlbumLog.new := rfl
    rw [hfeed]
    exact ih fun l hl => hpre l (List.mem_cons_of_mem _ hl)

/-- C6: counted entries before the first date marker are silently discarded:
the log built from them is the log built without them, and they contribute
nothing to the per-album or per-artist totals. -/
theorem C6_pre_date_dropped (pre rest : List ParsedLine)
    (hpre : ∀ l ∈ pre, ∃ e, l = ParsedLine.entry e) :
    buildLog (pre ++ rest) = buildLog rest ∧
    (∀ v, albumTotalOfLines (pre ++ rest) v = albumTotalOfLines rest v) ∧
    (∀ a, artistTotalOfLines (pre ++ rest) a = artistTotalOfLines rest a) := by
  have hlog : buildLog (pre ++ rest) = buildLog rest := by
    unfold buildLog
    rw [List.foldl_append, feed_lines_entries_only pre hpre]
  refine ⟨hlog, ?_, ?_⟩
  · intro v
    unfold albumTotalOfLines
    rw [hlog]
  · intro a
    unfold artistTotalOfLines rankedAlbums
    rw [hlog]

/-- C6, witness: one entry before the first date marker changes nothing. -/
theorem C6_pre_date_dropped_witness :
    buildLog ([ParsedLine.entry ⟨1, "X".data⟩] ++ [ParsedLine.date "d".data]) =
      buildLog [ParsedLine.date "d".data] ∧
    albumTotalOfLines ([ParsedLine.entry ⟨1, "X".data⟩] ++
        [ParsedLine.date "d".data]) "X".data =
      albumTotalOfLines [ParsedLine.date "d".data] "X".data := by
  have h := C6_pre_date_dropped [ParsedLine.entry ⟨1, "X".data⟩]
    [ParsedLine.date "d".data]
    (by
      intro l hl
      rw [List.mem_singleton] at hl
      exact ⟨_, hl⟩)
  exact ⟨h.1, h.2.1 "X".data⟩

/-! ## C1: the ranker -/

/-- Rank handed to the next element by the scan, given the scan state. -/
def stepRank (st : Option (Nat × Nat)) (f : Nat) : Nat :=
  match st with
  | none => 1
  | some (rank, rankFreq) => if f ≠ rankFreq then rank + 1 else rank

lemma rankScan_cons {T : Type} (st : Option (Nat × Nat)) (e : FreqEntry T)
    (rest : List (FreqEntry T)) :
    rankScan st (e :: rest) =
      (stepRank st e.freq, e) ::
        rankScan (some (stepRank st e.freq, e.freq)) rest := by
  cases st with
  | none => rfl
  | some p =>
    obtain ⟨r, rf⟩ := p
    by_cases h : e.freq ≠ rf
    · simp [rankScan, stepRank, h]
    · push_neg at h
      simp [rankScan, stepRank, h]

lemma rankScan_map_snd {T : Type} (l : List (FreqEntry T)) :
    ∀ st, (rankScan st l).map Prod.snd = l := by
  induction l with
  | nil => intro st; rfl
  | cons e rest ih =>
    intro st
    rw [rankScan_cons, List.map_cons, ih]

lemma rankScan_length {T : Type} (l : List (FreqEntry T)) (st : Option (Nat × Nat)) :
    (rankScan st l).length = l.length := by
  have := congrArg List.length (rankScan_map_snd l st)
  simpa using this

lemma rankScan_get_zero {T : Type} (st : Option (Nat × Nat)) (e : FreqEntry T)
    (rest : List (FreqEntry T)) (hk : 0 < (rankScan st (e :: rest)).length) :
    (rankScan st (e :: rest)).get ⟨0, hk⟩ = (stepRank st e.freq, e) := by
  have h := List.get_of_eq (rankScan_cons st e rest) ⟨0, hk⟩
  rw [h]
  exact List.get_cons_zero

lemma rankScan_get_succ {T : Type} (st : Option (Nat × Nat)) (e : FreqEntry T)
    (rest : List (FreqEntry T)) (k : Nat)
    (hk : k + 1 < (rankScan st (e :: rest)).length)
    (hk' : k < (rankScan (some (stepRank st e.freq, e.freq)) rest).length) :
    (rankScan st (e :: rest)).get ⟨k + 1, hk⟩ =
      (rankScan (some (stepRank st e.freq, e.freq)) rest).get ⟨k, hk'⟩ := by
  have h := List.get_of_eq (rankScan_cons st e rest) ⟨k + 1, hk⟩
  rw [h]
  exact List.get_cons_succ

lemma rankScan_chain {T : Type} (l : List (FreqEntry T)) :
    ∀ (st : Option (Nat × Nat)) (i : Nat) (h : i + 1 < (rankScan st l).length),
      ((rankScan st l).get ⟨i + 1, h⟩).1 =
        if ((rankScan st l).get ⟨i + 1, h⟩).2.freq =
            ((rankScan st l).get ⟨i, Nat.lt_of_succ_lt h⟩).2.freq
        then ((rankScan st l).get ⟨i, Nat.lt_of_succ_lt h⟩).1
        else ((rankScan st l).get ⟨i, Nat.lt_of_succ_lt h⟩).1 + 1 := by
  induction l with
  | nil =>
    intro st i h
    rw [rankScan] at h
    simp at h
  | cons e rest ih =>
    intro st i h
    have hlen : (rankScan st (e :: rest)).length = rest.length + 1 := by
      rw [rankScan_length]
      rfl
    cases i with
    | zero =>
      cases rest with
      | nil =>
        rw [hlen] at h
        simp at h
      | cons e' rest' =>
        have hk' : 0 < (rankScan (some (stepRank st e.freq, e.freq))
            (e' :: rest')).length := by
          rw [rankScan_length]
          simp
        rw [rankScan_get_succ st e (e' :: rest') 0 h hk',
          rankScan_get_zero (some (stepRank st e.freq, e.freq)) e' rest' hk',
          rankScan_get_zero st e (e' :: rest') (Nat.lt_of_succ_lt h)]
        show stepRank (some (stepRank st e.freq, e.freq)) e'.freq =
          if e'.freq = e.freq then stepRank st e.freq else stepRank st e.freq + 1
        unfold stepRank
        by_cases hf : e'.freq = e.freq
        · simp [hf]
        · simp [hf]
    | succ j =>
      have hk' : j + 1 < (rankScan (some (stepRank st e.freq, e.freq))
          rest).length := by
        rw [rankScan_length]
        rw [hlen] at h
        omega
      rw [rankScan_get_succ st e rest (j + 1) h hk',
        rankScan_get_succ st e rest j (Nat.lt_of_succ_lt h) (Nat.lt_of_succ_lt hk')]
      exact ih _ j hk'

lemma from_freq_entries_map_freq {T : Type} [LinearOrder T] (l : List (FreqEntry T)) :
    (RankedEntry.from_freq_entries l).map RankedEntry.freq_entry =
      List.insertionSort FreqEntry.le l := by
  unfold RankedEntry.from_freq_entries
  rw [List.map_map]
  have h1 : (RankedEntry.freq_entry ∘ fun p : Nat × (Nat × FreqEntry T) =>
      (⟨p.1, p.2.1, p.2.2⟩ : RankedEntry T)) = Prod.snd ∘ Prod.snd := rfl
  rw [h1, ← List.map_map, List.enum_eq_enumFrom, List.enumFrom_map_snd,
    rankScan_map_snd]

lemma from_freq_entries_length {T : Type} [LinearOrder T] (l : List (FreqEntry T)) :
    (RankedEntry.from_freq_entries l).length =
      (rankScan none (List.insertionSort FreqEntry.le l)).length := by
  unfold RankedEntry.from_freq_entries
  simp [List.enum_eq_enumFrom]

lemma from_freq_entries_get {T : Type} [LinearOrder T] (l : List (FreqEntry T))
    (i : Nat) (h : i < (RankedEntry.from_freq_entries l).length) :
    (RankedEntry.from_freq_entries l).get ⟨i, h⟩ =
      ⟨i,
        ((rankScan none (List.insertionSort FreqEntry.le l)).get
          ⟨i, from_freq_entries_length l ▸ h⟩).1,
        ((rankScan none (List.insertionSort FreqEntry.le l)).get
          ⟨i, from_freq_entries_length l ▸ h⟩).2⟩ := by
  unfold RankedEntry.from_freq_entries
  simp [List.get_eq_getElem, List.enum_eq_enumFrom, List.getElem_enumFrom]

/-- C1: `from_freq_entries` returns the input entries sorted by descending
frequency with ties broken by ascending value (the order `FreqEntry.le`), the
first element has rank 1, each subsequent element repeats its predecessor's
rank exactly when their frequencies agree and otherwise adds 1 to it, and
each element's display index is its zero-based position in the output. -/
theorem C1_ranker (T : Type) [LinearOrder T] (l : List (FreqEntry T)) :
    ((RankedEntry.from_freq_entries l).map RankedEntry.freq_entry).Perm l ∧
    ((RankedEntry.from_freq_entries l).map RankedEntry.freq_entry).Pairwise
      FreqEntry.le ∧
    (∀ (i : Nat) (h : i < (RankedEntry.from_freq_entries l).length),
      ((RankedEntry.from_freq_entries l).get ⟨i, h⟩).idx = i) ∧
    (∀ h : 0 < (RankedEntry.from_freq_entries l).length,
      ((RankedEntry.from_freq_entries l).get ⟨0, h⟩).rank = 1) ∧
    (∀ (i : Nat) (h : i + 1 < (RankedEntry.from_freq_entries l).length),
      ((RankedEntry.from_freq_entries l).get ⟨i + 1, h⟩).rank =
        if ((RankedEntry.from_freq_entries l).get ⟨i + 1, h⟩).freq_entry.freq =
            ((RankedEntry.from_freq_entries l).get
              ⟨i, Nat.lt_of_succ_lt h⟩).freq_entry.freq
        then ((RankedEntry.from_freq_entries l).get ⟨i, Nat.lt_of_succ_lt h⟩).rank
        else ((RankedEntry.from_freq_entries l).get
          ⟨i, Nat.lt_of_succ_lt h⟩).rank + 1) := by
  refine ⟨?_, ?_, ?_, ?_, ?_⟩
  · rw [from_freq_entries_map_freq]
    exact List.perm_insertionSort FreqEntry.le l
  · rw [from_freq_entries_map_freq]
    exact List.sorted_insertionSort FreqEntry.le l
  · intro i h
    rw [from_freq_entries_get]
  · intro h
    rw [from_freq_entries_get]
    show ((rankScan none (List.insertionSort FreqEntry.le l)).get
      ⟨0, from_freq_entries_length l ▸ h⟩).1 = 1
    have hlen : 0 < (List.insertionSort FreqEntry.le l).length := by
      have h1 := from_freq_entries_length l
      have h2 := rankScan_length (List.insertionSort FreqEntry.le l)
        (none : Option (Nat × Nat))
      omega
    obtain ⟨e, rest, hS⟩ :=
      List.exists_cons_of_ne_nil (List.ne_nil_of_length_pos hlen)
    have hget := List.get_of_eq (congrArg (rankScan none) hS)
      ⟨0, from_freq_entries_length l ▸ h⟩
    rw [hget, rankScan_get_zero]
    rfl
  · intro i h
    have hch := rankScan_chain (List.insertionSort FreqEntry.le l) none i
      (from_freq_entries_length l ▸ h)
    rw [from_freq_entries_get, from_freq_entries_get]
    exact hch

/-- C1, witness at a concrete entry list over `Nat` values. -/
theorem C1_ranker_witness :
    (∀ hlen : 0 < (RankedEntry.from_freq_entries
        [(⟨2, 3⟩ : FreqEntry Nat), ⟨5, 1⟩, ⟨2, 1⟩]).length,
      ((RankedEntry.from_freq_entries
        [(⟨2, 3⟩ : FreqEntry Nat), ⟨5, 1⟩, ⟨2, 1⟩]).get ⟨0, hlen⟩).rank = 1) ∧
    ((RankedEntry.from_freq_entries
        [(⟨2, 3⟩ : FreqEntry Nat), ⟨5, 1⟩, ⟨2, 1⟩]).map
      RankedEntry.freq_entry).Perm [⟨2, 3⟩, ⟨5, 1⟩, ⟨2, 1⟩] :=
  ⟨(C1_ranker Nat [⟨2, 3⟩, ⟨5, 1⟩, ⟨2, 1⟩]).2.2.2.1,
    (C1_ranker Nat [⟨2, 3⟩, ⟨5, 1⟩, ⟨2, 1⟩]).1⟩

/-! ## C9: order independence of the aggregation -/

lemma counterGet_foldl_proj {K A : Type} [DecidableEq K] (key : A → K)
    (val : A → Nat) (ps : List A) :
    ∀ (m : List (K × Nat)) (k : K),
      counterGet (ps.foldl (fun acc a => counterAdd acc (key a) (val a)) m) k =
        counterGet m k + (ps.map fun a => if key a = k then val a else 0).sum := by
  induction ps with
  | nil => intro m k; simp
  | cons p ps ih =>
    intro m k
    rw [List.foldl_cons, ih, counterGet_counterAdd, List.map_cons, List.sum_cons,
      Nat.add_assoc]

lemma flatten_bucketPush (m : List (Str × List (FreqEntry Str))) (d : Str)
    (e : FreqEntry Str) :
    (((bucketPush m d e).map Prod.snd).flatten).Perm
      ((m.map Prod.snd).flatten ++ [e]) := by
  induction m with
  | nil => simp [bucketPush]
  | cons p m ih =>
    rw [bucketPush]
    by_cases hp : p.1 = d
    · rw [if_pos hp]
      simp only [List.map_cons, List.flatten_cons]
      have heq : (p.2 ++ [e]) ++ (m.map Prod.snd).flatten =
          p.2 ++ ([e] ++ (m.map Prod.snd).flatten) := by
        rw [List.append_assoc]
      rw [heq]
      refine (List.Perm.append_left p.2 (List.perm_append_comm)).trans ?_
      rw [← List.append_assoc]
    · rw [if_neg hp]
      simp only [List.map_cons, List.flatten_cons]
      refine (List.Perm.append_left p.2 ih).trans ?_
      rw [← List.append_assoc]

lemma flattened_foldl (ls : List ParsedLine) :
    ∀ log : AlbumLog,
      ((ls.foldl AlbumLog.feed_line log).flattened).Perm
        (log.flattened ++ (taggedEntries log.current ls).map Prod.snd) := by
  induction ls with
  | nil =>
    intro log
    simp [taggedEntries]
  | cons l rest ih =>
    intro log
    cases l with
    | date d =>
      rw [List.foldl_cons]
      have hfeed : log.feed_line (.date d) = ⟨log.entries, some d⟩ := rfl
      rw [hfeed]
      exact ih ⟨log.entries, some d⟩
    | entry e =>
      rw [List.foldl_cons]
      cases hcur : log.current with
      | some d =>
        have hfeed : log.feed_line (.entry e) =
            ⟨bucketPush log.entries d e, some d⟩ := by
          rw [AlbumLog.feed_line, hcur]
        have htag : taggedEntries (some d) (ParsedLine.entry e :: rest) =
            (d, e) :: taggedEntries (some d) rest := by
          simp [taggedEntries]
        rw [hfeed, htag]
        have hih := ih ⟨bucketPush log.entries d e, some d⟩
        have hflat : List.Perm
            (AlbumLog.flattened ⟨bucketPush log.entries d e, some d⟩)
            (log.flattened ++ [e]) := flatten_bucketPush log.entries d e
        refine hih.trans ?_
        refine (List.Perm.append_right _ hflat).trans ?_
        rw [List.append_assoc]
        exact List.Perm.of_eq rfl
      | none =>
        have hfeed : log.feed_line (.entry e) = log := by
          rw [AlbumLog.feed_line, hcur]
        have htag : taggedEntries (none : Option Str) (ParsedLine.entry e :: rest) =
            taggedEntries none rest := by
          simp [taggedEntries]
        rw [hfeed, htag]
        have hih := ih log
        rw [hcur] at hih
        exact hih

lemma flattened_buildLog_perm (ls : List ParsedLine) :
    ((buildLog ls).flattened).Perm ((taggedEntries none ls).map Prod.snd) := by
  have h := flattened_foldl ls AlbumLog.new
  simpa [AlbumLog.flattened, AlbumLog.new] using h

lemma albumTotal_formula (ls : List ParsedLine) (v : Str) :
    albumTotalOfLines ls v =
      (((buildLog ls).flattened).map fun e => if e.value = v then e.freq else 0).sum := by
  unfold albumTotalOfLines albumFreq
  rw [counterGet_foldl_proj (fun e : FreqEntry Str => e.value)
    (fun e : FreqEntry Str => e.freq) _ [] v, counterGet_nil, Nat.zero_add]

lemma mem_keys_counterAdd {K : Type} [DecidableEq K] (m : List (K × Nat))
    (k k' : K) (f : Nat) :
    k' ∈ (counterAdd m k f).map Prod.fst ↔ k' ∈ m.map Prod.fst ∨ k' = k := by
  induction m with
  | nil => simp [counterAdd]
  | cons p m ih =>
    rw [counterAdd]
    by_cases hp : p.1 = k
    · rw [if_pos hp]
      simp only [List.map_cons, List.mem_cons]
      rw [hp]
      tauto
    · rw [if_neg hp]
      simp only [List.map_cons, List.mem_cons, ih]
      tauto

lemma nodup_keys_counterAdd {K : Type} [DecidableEq K] (m : List (K × Nat))
    (k : K) (f : Nat) (h : (m.map Prod.fst).Nodup) :
    ((counterAdd m k f).map Prod.fst).Nodup := by
  induction m with
  | nil => simp [counterAdd]
  | cons p m ih =>
    rw [counterAdd]
    rw [List.map_cons, List.nodup_cons] at h
    by_cases hp : p.1 = k
    · rw [if_pos hp, List.map_cons, List.nodup_cons]
      exact h
    · rw [if_neg hp, List.map_cons, List.nodup_cons]
      refine ⟨?_, ih h.2⟩
      rw [mem_keys_counterAdd]
      rintro (hm | hk)
      · exact h.1 hm
      · exact hp hk

lemma mem_keys_foldl_proj {K A : Type} [DecidableEq K] (key : A → K)
    (val : A → Nat) (ps : List A) : ∀ (m : List (K × Nat)) (k : K),
      (k ∈ (ps.foldl (fun acc a => counterAdd acc (key a) (val a)) m).map Prod.fst) ↔
        k ∈ m.map Prod.fst ∨ k ∈ ps.map key := by
  induction ps with
  | nil => simp
  | cons p ps ih =>
    intro m k
    rw [List.foldl_cons, ih, mem_keys_counterAdd]
    simp only [List.map_cons, List.mem_cons]
    tauto

lemma nodup_keys_foldl_proj {K A : Type} [DecidableEq K] (key : A → K)
    (val : A → Nat) (ps : List A) : ∀ m : List (K × Nat), (m.map Prod.fst).Nodup →
      ((ps.foldl (fun acc a => counterAdd acc (key a) (val a)) m).map Prod.fst).Nodup := by
  induction ps with
  | nil => intro m h; exact h
  | cons p ps ih =>
    intro m h
    rw [List.foldl_cons]
    exact ih _ (nodup_keys_counterAdd m _ _ h)

lemma counter_eq_keys_map {K : Type} [DecidableEq K] :
    ∀ m : List (K × Nat), (m.map Prod.fst).Nodup →
      m = (m.map Prod.fst).map fun k => (k, counterGet m k) := by
  intro m
  induction m with
  | nil => intro h; rfl
  | cons p m ih =>
    intro h
    rw [List.map_cons, List.nodup_cons] at h
    rw [List.map_cons, List.map_cons]
    congr 1
    · rw [counterGet_cons, if_pos rfl]
    · have hm := ih h.2
      conv_lhs => rw [hm]
      apply List.map_congr_left
      intro k hk
      have hne : p.1 ≠ k := fun hh => h.1 (hh ▸ hk)
      rw [counterGet_cons, if_neg hne]

lemma albumFreq_perm (ls1 ls2 : List ParsedLine)
    (h : (taggedEntries none ls1).Perm (taggedEntries none ls2)) :
    (albumFreq (buildLog ls1)).Perm (albumFreq (buildLog ls2)) := by
  have hflat : ((buildLog ls1).flattened).Perm ((buildLog ls2).flattened) :=
    (flattened_buildLog_perm ls1).trans ((h.map Prod.snd).trans
      (flattened_buildLog_perm ls2).symm)
  have hget : ∀ k, counterGet (albumFreq (buildLog ls1)) k =
      counterGet (albumFreq (buildLog ls2)) k := by
    intro k
    unfold albumFreq
    rw [counterGet_foldl_proj (fun e : FreqEntry Str => e.value)
        (fun e : FreqEntry Str => e.freq) _ [] k,
      counterGet_foldl_proj (fun e : FreqEntry Str => e.value)
        (fun e : FreqEntry Str => e.freq) _ [] k]
    exact congrArg (Nat.add _)
      ((hflat.map fun e => if e.value = k then e.freq else 0).sum_eq)
  have hkeys1 : ((albumFreq (buildLog ls1)).map Prod.fst).Nodup := by
    unfold albumFreq
    exact nodup_keys_foldl_proj _ _ _ [] (by simp)
  have hkeys2 : ((albumFreq (buildLog ls2)).map Prod.fst).Nodup := by
    unfold albumFreq
    exact nodup_keys_foldl_proj _ _ _ [] (by simp)
  have hmem : ∀ k, k ∈ (albumFreq (buildLog ls1)).map Prod.fst ↔
      k ∈ (albumFreq (buildLog ls2)).map Prod.fst := by
    intro k
    unfold albumFreq
    rw [mem_keys_foldl_proj, mem_keys_foldl_proj]
    simp only [List.map_nil, List.not_mem_nil, false_or]
    exact (hflat.map fun e : FreqEntry Str => e.value).mem_iff
  have hkp : ((albumFreq (buildLog ls1)).map Prod.fst).Perm
      ((albumFreq (buildLog ls2)).map Prod.fst) :=
    (List.perm_ext_iff_of_nodup hkeys1 hkeys2).mpr hmem
  have step1 : albumFreq (buildLog ls1) =
      ((albumFreq (buildLog ls1)).map Prod.fst).map
        (fun k => (k, counterGet (albumFreq (buildLog ls1)) k)) :=
    counter_eq_keys_map _ hkeys1
  have step3 : ((albumFreq (buildLog ls2)).map Prod.fst).map
        (fun k => (k, counterGet (albumFreq (buildLog ls1)) k)) =
      ((albumFreq (buildLog ls2)).map Prod.fst).map
        (fun k => (k, counterGet (albumFreq (buildLog ls2)) k)) :=
    List.map_congr_left fun k _ => by rw [hget k]
  have step4 : ((albumFreq (buildLog ls2)).map Prod.fst).map
        (fun k => (k, counterGet (albumFreq (buildLog ls2)) k)) =
      albumFreq (buildLog ls2) :=
    (counter_eq_keys_map _ hkeys2).symm
  rw [step1, ← step4, ← step3]
  exact hkp.map _

lemma rankedAlbums_eq (ls1 ls2 : List ParsedLine)
    (h : (taggedEntries none ls1).Perm (taggedEntries none ls2)) :
    rankedAlbums ls1 = rankedAlbums ls2 := by
  have hperm := albumFreq_perm ls1 ls2 h
  unfold rankedAlbums RankedEntry.from_freq_entries
  have hsorteq : List.insertionSort FreqEntry.le
      ((albumFreq (buildLog ls1)).map fun p => (⟨p.2, p.1⟩ : FreqEntry Str)) =
    List.insertionSort FreqEntry.le
      ((albumFreq (buildLog ls2)).map fun p => (⟨p.2, p.1⟩ : FreqEntry Str)) := by
    exact List.eq_of_perm_of_sorted
      ((List.perm_insertionSort _ _).trans
        ((hperm.map fun p => (⟨p.2, p.1⟩ : FreqEntry Str)).trans
          (List.perm_insertionSort _ _).symm))
      (List.sorted_insertionSort _ _)
      (List.sorted_insertionSort _ _)
  rw [hsorteq]

/-- C9: aggregation is order-independent.  For two classified line sequences
carrying the same multiset of date-tagged entries (in particular, for any
permutation of the input lines that preserves each entry's associated date),
the per-album totals and the per-artist totals coincide. -/
theorem C9_permutation_invariance (ls1 ls2 : List ParsedLine)
    (h : (taggedEntries none ls1).Perm (taggedEntries none ls2)) :
    (∀ v, albumTotalOfLines ls1 v = albumTotalOfLines ls2 v) ∧
    (∀ a, artistTotalOfLines ls1 a = artistTotalOfLines ls2 a) := by
  constructor
  · intro v
    rw [albumTotal_formula, albumTotal_formula]
    have hflat : ((buildLog ls1).flattened).Perm ((buildLog ls2).flattened) :=
      (flattened_buildLog_perm ls1).trans ((h.map Prod.snd).trans
        (flattened_buildLog_perm ls2).symm)
    exact (hflat.map fun e => if e.value = v then e.freq else 0).sum_eq
  · intro a
    unfold artistTotalOfLines
    rw [rankedAlbums_eq ls1 ls2 h]

/-- C9, witness: swapping the two entries of one date leaves both an album
total and an artist total unchanged. -/
theorem C9_permutation_invariance_witness :
    albumTotalOfLines
        [ParsedLine.date "d".data, .entry ⟨1, "A – X".data⟩,
          .entry ⟨2, "B – Y".data⟩] "A – X".data =
      albumTotalOfLines
        [ParsedLine.date "d".data, .entry ⟨2, "B – Y".data⟩,
          .entry ⟨1, "A – X".data⟩] "A – X".data ∧
    artistTotalOfLines
        [ParsedLine.date "d".data, .entry ⟨1, "A – X".data⟩,
          .entry ⟨2, "B – Y".data⟩] "A".data =
      artistTotalOfLines
        [ParsedLine.date "d".data, .entry ⟨2, "B – Y".data⟩,
          .entry ⟨1, "A – X".data⟩] "A".data :=
  ⟨(C9_permutation_invariance _ _ (by decide)).1 "A – X".data,
    (C9_permutation_invariance _ _ (by decide)).2 "A".data⟩

